import Mathlib

/-!
# Verification of the functional-commitment protocol stack

Shallow embedding of the additively homomorphic polynomial-commitment
interface (`zero_over_k/src/commitment.rs`), the `NewVO` virtual-oracle
layer (`virtual_oracle/new_vo/mod.rs`), `ProductCheckVO`
(`virtual_oracle/product_check_oracle.rs`), `NonZeroOverK::prove`
(`non_zero_over_k/mod.rs`) and the `TStrictlyLowerTriangular` prover and
verifier (`t_strictly_lower_triangular_test/mod.rs`), together with
theorems settling the frozen claims about them.

Rust `Result` values are embedded as `Except`; a Rust panic (an `unwrap`
or out-of-bounds index on a path that never constructs an error value) is
embedded as `none` in an outer `Option`.
-/

/-- The error sum type of the repository (`error.rs` of the two crates);
only the constructors the claims mention are carried, with the
`format!` message payloads kept as structured data. -/
inductive RError where
  | t2Large
  | fEvalIsZero
  | vOFailedToCompute
  | vOFailedToInstantiate
  | instantiationError
  | evaluationError
  | mismatchedDegreeBounds (firstLabel : String) (firstBound : Option Nat)
      (badLabel : String) (badBound : Option Nat)
  | missingCommitment (label : String) (lcLabel : String)
  | inputLengthError (expected got : Nat)
deriving DecidableEq, Repr

/-- Error discriminator, used to state which of the declared failure
kinds a call produced without fixing the message payload. -/
inductive RErrorKind where
  | t2Large
  | fEvalIsZero
  | vOFailedToCompute
  | vOFailedToInstantiate
  | instantiationError
  | evaluationError
  | mismatchedDegreeBounds
  | missingCommitment
  | inputLengthError
deriving DecidableEq, Repr

def RError.kind : RError → RErrorKind
  | .t2Large => .t2Large
  | .fEvalIsZero => .fEvalIsZero
  | .vOFailedToCompute => .vOFailedToCompute
  | .vOFailedToInstantiate => .vOFailedToInstantiate
  | .instantiationError => .instantiationError
  | .evaluationError => .evaluationError
  | .mismatchedDegreeBounds _ _ _ _ => .mismatchedDegreeBounds
  | .missingCommitment _ _ => .missingCommitment
  | .inputLengthError _ _ => .inputLengthError

/-- `ark_poly_commit::LabeledCommitment`: a commitment paired with the
polynomial's label and optional degree bound. -/
structure LabeledCommitment (C : Type) where
  label : String
  commitment : C
  degreeBound : Option Nat
deriving DecidableEq, Repr

/-- `ark_poly_commit::LCTerm`: either the constant term `One` or a
polynomial label. -/
inductive LCTerm where
  | one
  | polyLabel (l : String)
deriving DecidableEq, Repr

/-- `ark_poly_commit::LinearCombination`: a label together with the list
of `(coefficient, term)` pairs iterated by `lc.iter()`. -/
structure LinearCombination (F : Type) where
  label : String
  terms : List (F × LCTerm)

section CommitmentLC

variable {F C R : Type} [CommRing F] [AddCommGroup C] [Module F C]
variable [AddCommGroup R] [Module F R]

/-- The term loop of `get_commitments_lc`
(`zero_over_k/src/commitment.rs` lines 67-83): starting from the
accumulator `acc` (`Commitment::empty()` at the call), each `(coef, term)`
pair either resolves a `PolyLabel` against the supplied commitments
(first match by label, `MissingCommitment` when absent) or contributes
`Commitment::empty()` for `LCTerm::One`, and adds `commitment * coef`. -/
def lcAggregateFrom (commitments : List (LabeledCommitment C))
    (lcLabel : String) (acc : C) : List (F × LCTerm) → Except RError C
  | [] => .ok acc
  | (coef, t) :: rest =>
    match t with
    | .one => lcAggregateFrom commitments lcLabel (acc + coef • (0 : C)) rest
    | .polyLabel l =>
      match commitments.find? (fun c => decide (c.label = l)) with
      | some c => lcAggregateFrom commitments lcLabel (acc + coef • c.commitment) rest
      | none => .error (.missingCommitment l lcLabel)

/-- `SonicKZG10::get_commitments_lc` (`zero_over_k/src/commitment.rs`
lines 47-90).  Reads `commitments[0].degree_bound()` first (a panic on an
empty slice, embedded as `none`), rejects any commitment whose degree
bound differs from the first one's, then folds the linear combination's
terms and labels the aggregate with the combination's label. -/
def get_commitments_lc (commitments : List (LabeledCommitment C))
    (lc : LinearCombination F) : Option (Except RError (LabeledCommitment C)) :=
  match commitments with
  | [] => none
  | c0 :: _ =>
    some (
      match commitments.find? (fun c => decide (c.degreeBound ≠ c0.degreeBound)) with
      | some c => .error (.mismatchedDegreeBounds c0.label c0.degreeBound c.label c.degreeBound)
      | none =>
        match lcAggregateFrom commitments lc.label (0 : C) lc.terms with
        | .ok agg => .ok ⟨lc.label, agg, c0.degreeBound⟩
        | .error e => .error e)

/-- The term loop of `get_commitments_lc_with_rands`
(`zero_over_k/src/commitment.rs` lines 122-139): the commitments are
zipped with their hiding randomness, a `PolyLabel` resolves to the first
pair whose commitment has the label, and both accumulators are updated
simultaneously. -/
def lcAggregatePairsFrom (pairs : List (LabeledCommitment C × R))
    (lcLabel : String) (accC : C) (accR : R) : List (F × LCTerm) → Except RError (C × R)
  | [] => .ok (accC, accR)
  | (coef, t) :: rest =>
    match t with
    | .one =>
      lcAggregatePairsFrom pairs lcLabel (accC + coef • (0 : C)) (accR + coef • (0 : R)) rest
    | .polyLabel l =>
      match pairs.find? (fun p => decide (p.1.label = l)) with
      | some p =>
        lcAggregatePairsFrom pairs lcLabel (accC + coef • p.1.commitment) (accR + coef • p.2) rest
      | none => .error (.missingCommitment l lcLabel)

/-- `SonicKZG10::get_commitments_lc_with_rands`
(`zero_over_k/src/commitment.rs` lines 92-145).  Checks the two slice
lengths first (`InputLengthError`), then reads
`commitments[0].degree_bound()` (a panic on an empty slice, embedded as
`none`), rejects mismatched degree bounds and folds the terms over the
zipped commitment/randomness pairs. -/
def get_commitments_lc_with_rands (commitments : List (LabeledCommitment C))
    (hidingRands : List R) (lc : LinearCombination F) :
    Option (Except RError (LabeledCommitment C × R)) :=
  if commitments.length ≠ hidingRands.length then
    some (.error (.inputLengthError commitments.length hidingRands.length))
  else
    match commitments with
    | [] => none
    | c0 :: _ =>
      some (
        match commitments.find? (fun c => decide (c.degreeBound ≠ c0.degreeBound)) with
        | some c => .error (.mismatchedDegreeBounds c0.label c0.degreeBound c.label c.degreeBound)
        | none =>
          match lcAggregatePairsFrom (commitments.zip hidingRands) lc.label (0 : C) (0 : R)
              lc.terms with
          | .ok agg => .ok (⟨lc.label, agg.1, c0.degreeBound⟩, agg.2)
          | .error e => .error e)

end CommitmentLC

/-- `ark_ff` field inversion as used by the repository:
`x.inverse()` is `None` exactly on zero. -/
def fieldInverse {F : Type} [Field F] [DecidableEq F] (x : F) : Option F :=
  if x = 0 then none else some x⁻¹

/-- The pointwise-inverse step of `NonZeroOverK::prove`
(`non_zero_over_k/mod.rs` lines 33-38): `g`'s evaluations on K are
`f_evals.iter().map(|x| x.inverse().unwrap())`.  The `unwrap` panics on a
zero evaluation; the panic is embedded as `none`.  No `FEvalIsZero`
error value is constructed anywhere on this path. -/
def nonZeroOverKGEvals {F : Type} [Field F] [DecidableEq F] : List F → Option (List F)
  | [] => some []
  | x :: xs =>
    match fieldInverse x with
    | none => none
    | some y =>
      match nonZeroOverKGEvals xs with
      | none => none
      | some ys => some (y :: ys)

/-- The observable steps of `TStrictlyLowerTriangular::prove`
(`t_strictly_lower_triangular_test/mod.rs` lines 54-100), in source
order: the Fiat-Shamir absorption of the protocol tag, the commitment to
the interpolated `h`, and the three delegate subprotocol invocations. -/
inductive TsltEvent where
  | absorbProtocolName
  | commitH
  | geoSeqProve
  | subsetProve
  | dlProve
deriving DecidableEq, Repr

/-- Control flow of `TStrictlyLowerTriangular::prove`
(`t_strictly_lower_triangular_test/mod.rs` lines 54-100): the protocol
tag is absorbed (line 55), then `t > domain_h.size()` returns
`Error::T2Large` (lines 59-61) before step 1 commits `h` and before any
delegate runs.  `rest` stands for the trace and outcome of steps 1-4
(the commitment to `h`, `GeoSeqTest::prove`, `SubsetOverK::prove`,
`DLComparison::prove`), which execute only when the guard passes. -/
def tsltProveRun (t sizeH : Nat) (rest : List TsltEvent × Except RError Unit) :
    List TsltEvent × Except RError Unit :=
  if t > sizeH then ([.absorbProtocolName], .error .t2Large)
  else (.absorbProtocolName :: rest.1, rest.2)

/-- `usize` subtraction: Rust panics on underflow (debug profile), so the
underflowing case is embedded as `none`. -/
def checkedSub (a b : Nat) : Option Nat :=
  if b ≤ a then some (a - b) else none

/-- The geometric-sequence length parameters `c_s` rebuilt by
`TStrictlyLowerTriangular::verify`
(`t_strictly_lower_triangular_test/mod.rs` lines 114-122):
`c_s = vec![domain_h.size() - t]`, then `to_pad = domain_k.size() -
(domain_h.size() - t)` is pushed when positive.  Both subtractions are
on `usize`; there is no `t <= domain_h.size()` guard in `verify`. -/
def tsltVerifyCs (t sizeH sizeK : Nat) : Option (List Nat) :=
  match checkedSub sizeH t with
  | none => none
  | some d =>
    match checkedSub sizeK d with
    | none => none
    | some toPad => some (if 0 < toPad then [d, toPad] else [d])

/-- Control flow of `TStrictlyLowerTriangular::verify`
(`t_strictly_lower_triangular_test/mod.rs` lines 103-152): the
geometric-sequence parameters are rebuilt first (no `T2Large` guard
exists anywhere in `verify`), then the delegate verifications run;
their combined outcome is abstracted as `delegates`. -/
def tsltVerifyRun (t sizeH sizeK : Nat) (delegates : Except RError Unit) :
    Option (Except RError Unit) :=
  match tsltVerifyCs t sizeH sizeK with
  | none => none
  | some _ => some delegates

/-- One Fiat-Shamir absorption, at the granularity of the
`fs_rng.absorb` calls visible in
`t_strictly_lower_triangular_test/mod.rs` and
`discrete_log_comparison/mod.rs`; absorptions made by deeper delegates
are carried as opaque `delegate` entries. -/
inductive Absorption (C : Type) where
  | tsltProtocolName
  | dlProtocolNameWithCommitments (cs : List C)
  | delegate (i : Nat)
deriving DecidableEq, Repr

/-- Absorptions performed by `DLComparison::prove`
(`discrete_log_comparison/mod.rs` line 68): one absorption of
`to_bytes![PROTOCOL_NAME, commitments]`, followed by whatever its own
delegates absorb. -/
def dlProveAbsorptions {C : Type} (cs : List C) (delegateAbsorptions : List (Absorption C)) :
    List (Absorption C) :=
  .dlProtocolNameWithCommitments cs :: delegateAbsorptions

/-- Absorptions performed by `DLComparison::verify`
(`discrete_log_comparison/mod.rs` line 238): the same absorption of
`to_bytes![PROTOCOL_NAME, commitments]` as the prover, followed by its
delegates'. -/
def dlVerifyAbsorptions {C : Type} (cs : List C) (delegateAbsorptions : List (Absorption C)) :
    List (Absorption C) :=
  .dlProtocolNameWithCommitments cs :: delegateAbsorptions

/-- Absorptions performed by `TStrictlyLowerTriangular::prove`
(`t_strictly_lower_triangular_test/mod.rs` lines 55 and 89-91): the tag
`b"t-Strictly Lower Triangular Test"` is absorbed first, and the only
further absorptions come from the delegated `DLComparison::prove`. -/
def tsltProveAbsorptions {C : Type} (cs : List C) (delegateAbsorptions : List (Absorption C)) :
    List (Absorption C) :=
  .tsltProtocolName :: dlProveAbsorptions cs delegateAbsorptions

/-- Absorptions performed by `TStrictlyLowerTriangular::verify`
(`t_strictly_lower_triangular_test/mod.rs` lines 103-152): the body
contains no `fs_rng.absorb` call of its own; every absorption comes from
the delegated `DLComparison::verify` (lines 140-149). -/
def tsltVerifyAbsorptions {C : Type} (cs : List C) (delegateAbsorptions : List (Absorption C)) :
    List (Absorption C) :=
  dlVerifyAbsorptions cs delegateAbsorptions

/-- Modelled from the spec: the claim discharged by a `DLComparison`
proof on oracle pair `(f, g)` (spec section 4.6; the PIOP internals
`discrete_log_comparison/piop` are not under `src/`): for every `x` in
K, the discrete log base omega of `f(x)` is strictly below that of
`g(x)`. -/
def dlComparisonClaim {F : Type} (dlog : F → Nat) (K : List F) (f g : F → F) : Prop :=
  ∀ x ∈ K, dlog (f x) < dlog (g x)

/-- Oracle argument forwarding of `TStrictlyLowerTriangular::prove`
(`t_strictly_lower_triangular_test/mod.rs` lines 89-91): the parameters
`row_poly` and `col_poly` are passed, in that order, as
`DLComparison::prove`'s oracle pair `(f, g)`. -/
def tsltProveDLOracles {A : Type} (row_poly col_poly : A) : A × A :=
  (row_poly, col_poly)

/-- Commitment argument forwarding of `TStrictlyLowerTriangular::verify`
(`t_strictly_lower_triangular_test/mod.rs` lines 140-149): the
parameters `row_commit` and `col_commit` are passed, in that order, as
`DLComparison::verify`'s commitment pair `(f_commit, g_commit)`. -/
def tsltVerifyDLCommits {A : Type} (row_commit col_commit : A) : A × A :=
  (row_commit, col_commit)

/-- The matrix call site of the t-SLT test
(`t_strictly_lower_triangular_test/tests.rs` lines 358-373,
`test_ac2ftf_matrix_a`, the one caller holding a real `ac2tft` matrix):
the matrix's `col_poly` is passed into `prove`'s first oracle slot
(`row_poly`) and its `row_poly` into the second (`col_poly`), and the
commitments are swapped the same way. -/
def ac2tftCallSiteOracles {A : Type} (row_M col_M : A) : A × A :=
  (col_M, row_M)

section PolyLayer

variable {F : Type} [CommRing F]

/-- Dense univariate polynomial over `F`, as its coefficient list in
increasing degree order (`ark_poly::univariate::DensePolynomial`). -/
abbrev RPoly (F : Type) := List F

/-- Polynomial evaluation (Horner form). -/
def polyEval (p : RPoly F) (x : F) : F :=
  p.foldr (fun c acc => c + x * acc) 0

/-- Coefficientwise polynomial addition. -/
def polyAdd : RPoly F → RPoly F → RPoly F
  | [], q => q
  | p, [] => p
  | a :: p, b :: q => (a + b) :: polyAdd p q

/-- Coefficientwise polynomial subtraction. -/
def polySub : RPoly F → RPoly F → RPoly F
  | [], q => q.map Neg.neg
  | p, [] => p
  | a :: p, b :: q => (a - b) :: polySub p q

/-- Scaling of every coefficient. -/
def polyScale (c : F) (p : RPoly F) : RPoly F :=
  p.map (fun a => c * a)

/-- Polynomial multiplication (convolution). -/
def polyMul : RPoly F → RPoly F → RPoly F
  | [], _ => []
  | a :: p, q => polyAdd (polyScale a q) ((0 : F) :: polyMul p q)

/-- Recursion worker for `shiftPoly`, carrying the running power of the
shifting coefficient. -/
def shiftPolyAux (alpha : F) : F → RPoly F → RPoly F
  | _, [] => []
  | pow, c :: cs => c * pow :: shiftPolyAux alpha (pow * alpha) cs

/-- Modelled from the spec: `shift_dense_poly` (`util.rs`, not under
`src/`) as described by the data model (spec section 3): the term reads
`p(alpha*X)`, i.e. coefficient `i` is scaled by `alpha^i`. -/
def shiftPoly (alpha : F) (p : RPoly F) : RPoly F :=
  shiftPolyAux alpha 1 p

theorem polyEval_nil (x : F) : polyEval ([] : RPoly F) x = 0 := rfl

theorem polyEval_cons (a : F) (p : RPoly F) (x : F) :
    polyEval (a :: p) x = a + x * polyEval p x := rfl

theorem polyEval_polyAdd (p q : RPoly F) (x : F) :
    polyEval (polyAdd p q) x = polyEval p x + polyEval q x := by
  induction p generalizing q with
  | nil => simp [polyAdd, polyEval_nil]
  | cons a p ih =>
    cases q with
    | nil => simp [polyAdd, polyEval_nil]
    | cons b q =>
      simp only [polyAdd, polyEval_cons, ih]
      ring

theorem polyEval_map_neg (q : RPoly F) (x : F) :
    polyEval (q.map Neg.neg) x = -polyEval q x := by
  induction q with
  | nil => simp [polyEval_nil]
  | cons b q ih =>
    simp only [List.map_cons, polyEval_cons, ih]
    ring

theorem polyEval_polySub (p q : RPoly F) (x : F) :
    polyEval (polySub p q) x = polyEval p x - polyEval q x := by
  induction p generalizing q with
  | nil => simp [polySub, polyEval_nil, polyEval_map_neg]
  | cons a p ih =>
    cases q with
    | nil => simp [polySub, polyEval_nil]
    | cons b q =>
      simp only [polySub, polyEval_cons, ih]
      ring

theorem polyEval_polyScale (c : F) (p : RPoly F) (x : F) :
    polyEval (polyScale c p) x = c * polyEval p x := by
  induction p with
  | nil => simp [polyScale, polyEval_nil]
  | cons a p ih =>
    simp only [polyScale, List.map_cons, polyEval_cons] at *
    rw [ih]
    ring

theorem polyEval_polyMul (p q : RPoly F) (x : F) :
    polyEval (polyMul p q) x = polyEval p x * polyEval q x := by
  induction p with
  | nil => simp [polyMul, polyEval_nil]
  | cons a p ih =>
    simp only [polyMul, polyEval_polyAdd, polyEval_polyScale, polyEval_cons, ih]
    ring

theorem polyEval_shiftPolyAux (alpha pow : F) (p : RPoly F) (x : F) :
    polyEval (shiftPolyAux alpha pow p) x = pow * polyEval p (alpha * x) := by
  induction p generalizing pow with
  | nil => simp [shiftPolyAux, polyEval_nil]
  | cons c cs ih =>
    simp only [shiftPolyAux, polyEval_cons, ih]
    ring

theorem polyEval_shiftPoly (alpha : F) (p : RPoly F) (x : F) :
    polyEval (shiftPoly alpha p) x = polyEval p (alpha * x) := by
  simp [shiftPoly, polyEval_shiftPolyAux]

end PolyLayer

/-- Modelled from the spec: the `Term` sum type of the virtual-oracle
layer (spec section 4.2; `virtual_oracle/new_vo/vo_term.rs` is not under
`src/`): a term is either a polynomial or a scalar evaluation. -/
inductive VOTerm (F : Type) where
  | Polynomial (p : RPoly F)
  | Evaluation (e : F)
deriving DecidableEq, Repr

/-- The `NewVO` value object (`virtual_oracle/new_vo/mod.rs` lines
16-25): a mapping vector selecting the concrete oracle feeding each
internal term, one shifting coefficient per term, and the combine
function carried as a closure. -/
structure NewVO (F : Type) where
  mappingVector : List Nat
  shiftingCoefficients : List F
  combine : List (VOTerm F) → VOTerm F

/-- `minimum_oracle_length` as set by `NewVO::new`
(`virtual_oracle/new_vo/mod.rs` lines 46-52): the largest mapped index
plus one.  (`new` panics on an empty mapping vector via `.expect`; on an
empty list this embedding yields 1, a case no claim exercises.) -/
def NewVO.minimumOracleLength {F : Type} (vo : NewVO F) : Nat :=
  vo.mappingVector.foldr Nat.max 0 + 1

section NewVOOps

variable {F : Type} [CommRing F]

/-- The term list built by `NewVO::compute_polynomial`
(`virtual_oracle/new_vo/mod.rs` lines 83-96): for each entry
`(term_index, mapped_index)` of the enumerated mapping vector, the
selected concrete oracle is shifted by the matching coefficient and
pushed as a `Polynomial` term.  (The Rust slice indexings are guarded by
`check_conrete_oracle_length` and the constructor invariant
`|mapping_vector| = |shifting_coefficients|`.) -/
def NewVO.polyTerms (vo : NewVO F) (concreteOracles : List (RPoly F)) : List (VOTerm F) :=
  vo.mappingVector.enum.map fun timi =>
    VOTerm.Polynomial
      (shiftPoly (vo.shiftingCoefficients.getD timi.1 0) (concreteOracles.getD timi.2 []))

/-- `NewVO::compute_polynomial` (`virtual_oracle/new_vo/mod.rs` lines
77-103): after the oracle-count check, the combine function is applied
to the polynomial terms; an `Evaluation` result is rejected with
`VOFailedToInstantiate`. -/
def NewVO.computePolynomial (vo : NewVO F) (concreteOracles : List (RPoly F)) :
    Except RError (RPoly F) :=
  if concreteOracles.length < vo.minimumOracleLength then
    .error (.inputLengthError vo.minimumOracleLength concreteOracles.length)
  else
    match vo.combine (vo.polyTerms concreteOracles) with
    | .Evaluation _ => .error .vOFailedToInstantiate
    | .Polynomial p => .ok p

/-- The `VirtualOracle::query` implementation of `NewVO`
(`virtual_oracle/new_vo/mod.rs` lines 227-236): each supplied evaluation
becomes an `Evaluation` term, the combine function is applied, and a
`Polynomial` result is rejected with `VOFailedToCompute`.  (The `point`
argument is received and ignored, as in the source.) -/
def NewVO.queryEvals (vo : NewVO F) (evals : List F) (_point : F) : Except RError F :=
  match vo.combine (evals.map VOTerm.Evaluation) with
  | .Evaluation res => .ok res
  | .Polynomial _ => .error .vOFailedToCompute

/-- Lookup in the `Evaluations` map keyed by `(polynomial label, point)`
(`ark_poly_commit::Evaluations`), embedded as an association list. -/
def lookupEval {F : Type} [DecidableEq F] (evaluations : List ((String × F) × F))
    (key : String × F) : Option F :=
  (evaluations.find? fun kv => decide (kv.1 = key)).map Prod.snd

/-- The term list built by `NewVO::evaluate_from_concrete_evals`
(`virtual_oracle/new_vo/mod.rs` lines 135-151): for each entry of the
enumerated mapping vector, the label of the selected oracle is indexed
(a Rust panic when out of bounds, embedded as `none`) and the evaluation
at the shifted point is fetched from the map (`.expect` panic when
missing, embedded as `none`). -/
def voTermsFromEvals {F : Type} [CommRing F] [DecidableEq F] (labels : List String)
    (coeffs : List F) (evalPoint : F) (evaluations : List ((String × F) × F)) :
    List (Nat × Nat) → Option (List (VOTerm F))
  | [] => some []
  | timi :: rest =>
    match labels[timi.2]? with
    | none => none
    | some l =>
      match lookupEval evaluations (l, coeffs.getD timi.1 0 * evalPoint) with
      | none => none
      | some v =>
        match voTermsFromEvals labels coeffs evalPoint evaluations rest with
        | none => none
        | some ts => some (VOTerm.Evaluation v :: ts)

/-- `NewVO::evaluate_from_concrete_evals` (`virtual_oracle/new_vo/mod.rs`
lines 129-158): the combine function is applied to the fetched
evaluation terms; a `Polynomial` result is rejected with
`VOFailedToCompute`. -/
def NewVO.evaluateFromConcreteEvals [DecidableEq F] (vo : NewVO F)
    (concreteOracleLabels : List String) (evalPoint : F)
    (evaluations : List ((String × F) × F)) : Option (Except RError F) :=
  match voTermsFromEvals concreteOracleLabels vo.shiftingCoefficients evalPoint evaluations
      vo.mappingVector.enum with
  | none => none
  | some terms =>
    some (
      match vo.combine terms with
      | .Evaluation eval => .ok eval
      | .Polynomial _ => .error .vOFailedToCompute)

end NewVOOps

/-- An arithmetic expression over the internal terms of a virtual
oracle: the shape of combine functions built from sums, differences,
products and constants, as the presets are (spec section 4.2). -/
inductive ArithExpr (F : Type) where
  | const (c : F)
  | term (i : Nat)
  | add (a b : ArithExpr F)
  | sub (a b : ArithExpr F)
  | mul (a b : ArithExpr F)

section ArithExprSem

variable {F : Type} [CommRing F]

/-- Scalar interpretation of an arithmetic expression. -/
def ArithExpr.evalField : ArithExpr F → List F → F
  | .const c, _ => c
  | .term i, ts => ts.getD i 0
  | .add a b, ts => a.evalField ts + b.evalField ts
  | .sub a b, ts => a.evalField ts - b.evalField ts
  | .mul a b, ts => a.evalField ts * b.evalField ts

/-- Polynomial interpretation of an arithmetic expression. -/
def ArithExpr.evalPoly : ArithExpr F → List (RPoly F) → RPoly F
  | .const c, _ => [c]
  | .term i, ps => ps.getD i []
  | .add a b, ps => polyAdd (a.evalPoly ps) (b.evalPoly ps)
  | .sub a b, ps => polySub (a.evalPoly ps) (b.evalPoly ps)
  | .mul a b, ps => polyMul (a.evalPoly ps) (b.evalPoly ps)

/-- Projection of a term list to polynomials; `none` as soon as a term
is an `Evaluation`. -/
def termsAsPolys : List (VOTerm F) → Option (List (RPoly F))
  | [] => some []
  | .Polynomial p :: rest => (termsAsPolys rest).map (p :: ·)
  | .Evaluation _ :: _ => none

/-- Projection of a term list to scalars; `none` as soon as a term is a
`Polynomial`. -/
def termsAsEvals : List (VOTerm F) → Option (List F)
  | [] => some []
  | .Evaluation e :: rest => (termsAsEvals rest).map (e :: ·)
  | .Polynomial _ :: _ => none

/-- Modelled from the spec: an arithmetic combine function (spec section
4.2 — the combine function operates uniformly on either polynomials or
scalar evaluations through the `Term` sum type; `vo_term.rs` with the
`Term` arithmetic is not under `src/`).  The same expression is
interpreted over polynomials when all terms are polynomials and over
scalars when all terms are evaluations. -/
def combineOfExpr (e : ArithExpr F) (ts : List (VOTerm F)) : VOTerm F :=
  match termsAsPolys ts with
  | some ps => .Polynomial (e.evalPoly ps)
  | none =>
    match termsAsEvals ts with
    | some es => .Evaluation (e.evalField es)
    | none => .Evaluation 0

end ArithExprSem

section ProductCheck

variable {F : Type} [CommRing F]

/-- `ProductCheckVO::instantiate_in_coeffs_form`
(`virtual_oracle/product_check_oracle.rs` lines 18-29): exactly three
concrete oracles are required (`InstantiationError` otherwise) and the
result is `f - g*h`. -/
def productCheckInstantiate (concreteOracles : List (RPoly F)) : Except RError (RPoly F) :=
  if concreteOracles.length ≠ 3 then .error .instantiationError
  else
    .ok (polySub (concreteOracles.getD 0 [])
      (polyMul (concreteOracles.getD 1 []) (concreteOracles.getD 2 [])))

/-- `ProductCheckVO::query` (`virtual_oracle/product_check_oracle.rs`
lines 35-41): exactly three evaluations are required
(`EvaluationError` otherwise) and the result is
`evals[0] - evals[1] * evals[2]`. -/
def productCheckQuery (evals : List F) (_point : F) : Except RError F :=
  if evals.length ≠ 3 then .error .evaluationError
  else .ok (evals.getD 0 0 - evals.getD 1 0 * evals.getD 2 0)

end ProductCheck

/-- C1: `TStrictlyLowerTriangular::prove` and `verify` invoke
`DiscreteLogComparison` on `(col_M, row_M)`: the prover forwards its
oracle parameters in declared order to `DLComparison`'s `(f, g)` pair
(`mod.rs` lines 89-91, 140-149), and the matrix call site
(`tests.rs` lines 358-373) binds the matrix's `col_M` to the first slot
and `row_M` to the second, so `DLComparison` receives `(col_M, row_M)`
and its discharged claim (spec section 4.6) is
`dlog(col_M(x)) < dlog(row_M(x))` for every `x` in K. -/
theorem c1_dl_comparison_receives_col_row {F : Type} (row_M col_M : F → F)
    (dlog : F → Nat) (K : List F) :
    tsltProveDLOracles (ac2tftCallSiteOracles row_M col_M).1
        (ac2tftCallSiteOracles row_M col_M).2 = (col_M, row_M) ∧
    tsltVerifyDLCommits (ac2tftCallSiteOracles row_M col_M).1
        (ac2tftCallSiteOracles row_M col_M).2 = (col_M, row_M) ∧
    dlComparisonClaim dlog K
        (tsltProveDLOracles (ac2tftCallSiteOracles row_M col_M).1
          (ac2tftCallSiteOracles row_M col_M).2).1
        (tsltProveDLOracles (ac2tftCallSiteOracles row_M col_M).1
          (ac2tftCallSiteOracles row_M col_M).2).2
      = ∀ x ∈ K, dlog (col_M x) < dlog (row_M x) :=
  ⟨rfl, rfl, rfl⟩

/-- C2: the code does not return `FEvalIsZero` when an evaluation of `f`
on K is zero — the pointwise-inverse step of `NonZeroOverK::prove`
(`non_zero_over_k/mod.rs` line 37) calls `.inverse().unwrap()` and
panics (embedded: `none`), producing neither a proof nor an error value,
although the repository's own test
(`t_strictly_lower_triangular_test/tests.rs` line 214) and the spec
(section 4.5) demand `Err(FEvalIsZero)`. -/
theorem c2_nonzero_over_k_panics_on_zero_eval {F : Type} [Field F] [DecidableEq F]
    (fEvals : List F) (h : (0 : F) ∈ fEvals) :
    nonZeroOverKGEvals fEvals = none := by
  induction fEvals with
  | nil => cases h
  | cons x xs ih =>
    rcases List.mem_cons.mp h with h0 | hmem
    · simp [nonZeroOverKGEvals, fieldInverse, h0.symm]
    · cases hx : fieldInverse x <;> simp [nonZeroOverKGEvals, hx, ih hmem]

instance : Fact (Nat.Prime 5) := ⟨by norm_num⟩

instance : Fact (Nat.Prime 7) := ⟨by norm_num⟩

theorem c2_nonzero_over_k_panics_on_zero_eval_witness :
    (0 : ZMod 5) ∈ [(0 : ZMod 5), 1] ∧ nonZeroOverKGEvals [(0 : ZMod 5), 1] = none :=
  ⟨by decide, c2_nonzero_over_k_panics_on_zero_eval [(0 : ZMod 5), 1] (by decide)⟩

/-- C4: the absorption orders of prover and verifier do NOT match —
`TStrictlyLowerTriangular::prove` absorbs the protocol tag first
(`mod.rs` line 55) while `verify` (`mod.rs` lines 103-152) performs no
absorption of its own and starts directly with the delegated
`DLComparison::verify` absorptions, so for every delegate absorption
sequence the verifier's transcript differs from the prover's and never
begins with the tag. -/
theorem c4_verify_skips_tag_absorption {C : Type} (cs : List C)
    (delegateAbsorptions : List (Absorption C)) :
    tsltProveAbsorptions cs delegateAbsorptions
      = Absorption.tsltProtocolName :: tsltVerifyAbsorptions cs delegateAbsorptions ∧
    tsltVerifyAbsorptions cs delegateAbsorptions
      ≠ tsltProveAbsorptions cs delegateAbsorptions ∧
    (tsltVerifyAbsorptions cs delegateAbsorptions).head?
      ≠ some Absorption.tsltProtocolName := by
  refine ⟨rfl, fun h => ?_, by simp [tsltVerifyAbsorptions, dlVerifyAbsorptions]⟩
  have hlen := congrArg List.length h
  simp only [tsltVerifyAbsorptions, tsltProveAbsorptions, dlVerifyAbsorptions,
    dlProveAbsorptions, List.length_cons] at hlen
  omega

/-- C7: for every `t` strictly greater than `|H|`,
`TStrictlyLowerTriangular::prove` returns `T2Large`, having emitted only
the tag absorption — no commitment to `h` and no delegate subprotocol
invocation happens. -/
theorem c7_prove_t2large_before_delegates (t sizeH : Nat)
    (rest : List TsltEvent × Except RError Unit) (h : t > sizeH) :
    tsltProveRun t sizeH rest = ([TsltEvent.absorbProtocolName], .error .t2Large) ∧
    TsltEvent.commitH ∉ (tsltProveRun t sizeH rest).1 ∧
    TsltEvent.geoSeqProve ∉ (tsltProveRun t sizeH rest).1 ∧
    TsltEvent.subsetProve ∉ (tsltProveRun t sizeH rest).1 ∧
    TsltEvent.dlProve ∉ (tsltProveRun t sizeH rest).1 := by
  refine ⟨?_, ?_, ?_, ?_, ?_⟩ <;> simp [tsltProveRun, h]

theorem c7_prove_t2large_before_delegates_witness :
    5 > 4 ∧
    (tsltProveRun 5 4 ([TsltEvent.commitH], .ok ())
        = ([TsltEvent.absorbProtocolName], .error .t2Large) ∧
      TsltEvent.commitH ∉ (tsltProveRun 5 4 ([TsltEvent.commitH], .ok ())).1 ∧
      TsltEvent.geoSeqProve ∉ (tsltProveRun 5 4 ([TsltEvent.commitH], .ok ())).1 ∧
      TsltEvent.subsetProve ∉ (tsltProveRun 5 4 ([TsltEvent.commitH], .ok ())).1 ∧
      TsltEvent.dlProve ∉ (tsltProveRun 5 4 ([TsltEvent.commitH], .ok ())).1) :=
  ⟨by decide, c7_prove_t2large_before_delegates 5 4 ([TsltEvent.commitH], .ok ()) (by decide)⟩

/-- C10: `TStrictlyLowerTriangular::verify` has no `t <= |H|` guard: for
every `t` greater than `|H|` the unsigned subtraction
`domain_h.size() - t` performed while rebuilding the geometric-sequence
parameters underflows (embedded: the run is `none`), and in particular
`verify` never returns `T2Large`. -/
theorem c10_verify_underflow_no_guard (t sizeH sizeK : Nat)
    (delegates : Except RError Unit) (h : t > sizeH) :
    tsltVerifyRun t sizeH sizeK delegates = none ∧
    tsltVerifyRun t sizeH sizeK delegates ≠ some (.error RError.t2Large) := by
  have hcs : tsltVerifyCs t sizeH sizeK = none := by
    simp only [tsltVerifyCs, checkedSub, if_neg (not_le.mpr h)]
  refine ⟨?_, ?_⟩ <;> simp [tsltVerifyRun, hcs]

theorem c10_verify_underflow_no_guard_witness :
    5 > 4 ∧
    (tsltVerifyRun 5 4 8 (.ok ()) = none ∧
      tsltVerifyRun 5 4 8 (.ok ()) ≠ some (.error RError.t2Large)) :=
  ⟨by decide, c10_verify_underflow_no_guard 5 4 8 (.ok ()) (by decide)⟩

/-- A concrete virtual oracle whose combine function always returns an
`Evaluation` term, whatever the terms' kind. -/
def evalReturningVO : NewVO (ZMod 5) :=
  ⟨[0], [1], fun _ => .Evaluation 0⟩

/-- A concrete virtual oracle whose combine function always returns a
`Polynomial` term, whatever the terms' kind. -/
def polyReturningVO : NewVO (ZMod 5) :=
  ⟨[0], [1], fun _ => .Polynomial []⟩

/-- C5 counterexample: when the combine function returns an `Evaluation`
where a `Polynomial` was expected, `NewVO::compute_polynomial` fails
with `VOFailedToInstantiate` (`new_vo/mod.rs` line 100), not with
`VOFailedToCompute` as the claim states. -/
theorem c5_compute_polynomial_error_counterexample :
    NewVO.computePolynomial evalReturningVO [[1]] ≠ .error RError.vOFailedToCompute ∧
    NewVO.computePolynomial evalReturningVO [[1]] = .error RError.vOFailedToInstantiate := by
  refine ⟨fun h => ?_, rfl⟩
  rw [show NewVO.computePolynomial evalReturningVO [[1]]
      = .error RError.vOFailedToInstantiate from rfl] at h
  cases Except.error.inj h

/-- C5 amended: a wrong-kind combine result makes
`NewVO::compute_polynomial` fail with `VOFailedToInstantiate`, while
`NewVO::evaluate_from_concrete_evals` and the trait `query` fail with
`VOFailedToCompute` when combine returns a `Polynomial` where an
`Evaluation` was expected. -/
theorem c5_wrong_kind_combine_errors {F : Type} [CommRing F] [DecidableEq F] :
    (∀ (vo : NewVO F) (oracles : List (RPoly F)) (e : F),
      ¬ oracles.length < vo.minimumOracleLength →
      vo.combine (vo.polyTerms oracles) = .Evaluation e →
      vo.computePolynomial oracles = .error RError.vOFailedToInstantiate) ∧
    (∀ (vo : NewVO F) (evals : List F) (x : F) (p : RPoly F),
      vo.combine (evals.map VOTerm.Evaluation) = .Polynomial p →
      vo.queryEvals evals x = .error RError.vOFailedToCompute) ∧
    (∀ (vo : NewVO F) (labels : List String) (x : F)
      (evaluations : List ((String × F) × F)) (terms : List (VOTerm F)) (p : RPoly F),
      voTermsFromEvals labels vo.shiftingCoefficients x evaluations vo.mappingVector.enum
        = some terms →
      vo.combine terms = .Polynomial p →
      vo.evaluateFromConcreteEvals labels x evaluations
        = some (.error RError.vOFailedToCompute)) := by
  refine ⟨fun vo oracles e hlen hc => ?_, fun vo evals x p hc => ?_,
    fun vo labels x evaluations terms p hterms hc => ?_⟩
  · simp [NewVO.computePolynomial, if_neg hlen, hc]
  · simp [NewVO.queryEvals, hc]
  · simp [NewVO.evaluateFromConcreteEvals, hterms, hc]

theorem c5_wrong_kind_combine_errors_witness :
    NewVO.computePolynomial evalReturningVO [[1]] = .error RError.vOFailedToInstantiate ∧
    NewVO.queryEvals polyReturningVO [0] 0 = .error RError.vOFailedToCompute ∧
    NewVO.evaluateFromConcreteEvals polyReturningVO ["f"] 1 [(("f", 1), 2)]
      = some (.error RError.vOFailedToCompute) :=
  ⟨c5_wrong_kind_combine_errors.1 evalReturningVO [[1]] 0 (by decide) rfl,
   c5_wrong_kind_combine_errors.2.1 polyReturningVO [0] 0 [] rfl,
   c5_wrong_kind_combine_errors.2.2 polyReturningVO ["f"] 1 [(("f", 1), 2)]
     [VOTerm.Evaluation 2] [] (by decide) rfl⟩

/-- C9 counterexample: on an empty commitments slice with a non-empty
randomness slice, `get_commitments_lc_with_rands` returns
`InputLengthError` — the length validation (`commitment.rs` lines
97-103) runs before `commitments[0]` is read, so the function does not
panic there, contrary to the claim. -/
theorem c9_with_rands_empty_slice_counterexample :
    get_commitments_lc_with_rands ([] : List (LabeledCommitment (ZMod 5))) [(1 : ZMod 5)]
        ⟨"lc", [((1 : ZMod 5), LCTerm.polyLabel "a")]⟩
      = some (.error (RError.inputLengthError 0 1)) := by
  rfl

/-- C9 amended: `get_commitments_lc` reads the first commitment's degree
bound before any validation and panics on an empty slice;
`get_commitments_lc_with_rands` validates the slice lengths first, so on
an empty commitments slice it panics only when the randomness slice is
also empty, and returns `InputLengthError` otherwise. -/
theorem c9_empty_slice_behaviour {F C R : Type} [CommRing F] [AddCommGroup C] [Module F C]
    [AddCommGroup R] [Module F R] :
    (∀ lc : LinearCombination F,
      get_commitments_lc ([] : List (LabeledCommitment C)) lc = none) ∧
    (∀ lc : LinearCombination F,
      get_commitments_lc_with_rands ([] : List (LabeledCommitment C)) ([] : List R) lc
        = none) ∧
    (∀ (lc : LinearCombination F) (r : R) (rs : List R),
      get_commitments_lc_with_rands ([] : List (LabeledCommitment C)) (r :: rs) lc
        = some (.error (RError.inputLengthError 0 (r :: rs).length))) := by
  refine ⟨fun lc => rfl, fun lc => rfl, fun lc r rs => ?_⟩
  simp [get_commitments_lc_with_rands]

section LCCharacterisation

variable {F C R : Type} [CommRing F] [AddCommGroup C] [Module F C]
variable [AddCommGroup R] [Module F R]

theorem lcAggregateFrom_ok (comms : List (LabeledCommitment C)) (L : String)
    (ts : List (F × LCTerm))
    (h : ∀ ct ∈ ts, ∀ l, ct.2 = LCTerm.polyLabel l →
      ((comms.find? fun c => decide (c.label = l)).isSome)) :
    ∀ acc : C, ∃ v, lcAggregateFrom comms L acc ts = .ok v := by
  induction ts with
  | nil => exact fun acc => ⟨acc, rfl⟩
  | cons ct rest ih =>
    intro acc
    obtain ⟨coef, t⟩ := ct
    have hrest := fun ct hct => h ct (List.mem_cons_of_mem _ hct)
    cases t with
    | one => simpa [lcAggregateFrom] using ih hrest (acc + coef • (0 : C))
    | polyLabel l =>
      have hs := h (coef, .polyLabel l) (List.mem_cons_self _ _) l rfl
      obtain ⟨c, hc⟩ := Option.isSome_iff_exists.mp hs
      simpa [lcAggregateFrom, hc] using ih hrest (acc + coef • c.commitment)

theorem lcAggregateFrom_missing (comms : List (LabeledCommitment C)) (L : String)
    (ts : List (F × LCTerm))
    (h : ∃ ct ∈ ts, ∃ l, ct.2 = LCTerm.polyLabel l ∧
      (comms.find? fun c => decide (c.label = l)) = none) :
    ∀ acc : C, ∃ l, lcAggregateFrom comms L acc ts = .error (.missingCommitment l L) := by
  induction ts with
  | nil => intro acc; simp at h
  | cons ct rest ih =>
    intro acc
    obtain ⟨coef, t⟩ := ct
    cases t with
    | one =>
      have hrest : ∃ ct ∈ rest, ∃ l, ct.2 = LCTerm.polyLabel l ∧
          (comms.find? fun c => decide (c.label = l)) = none := by
        rcases h with ⟨ct', hct', l, hl, hfind'⟩
        rcases List.mem_cons.mp hct' with rfl | hmem
        · cases hl
        · exact ⟨ct', hmem, l, hl, hfind'⟩
      simpa [lcAggregateFrom] using ih hrest (acc + coef • (0 : C))
    | polyLabel l0 =>
      cases hfind : comms.find? fun c => decide (c.label = l0) with
      | none => exact ⟨l0, by simp [lcAggregateFrom, hfind]⟩
      | some c =>
        have hrest : ∃ ct ∈ rest, ∃ l, ct.2 = LCTerm.polyLabel l ∧
            (comms.find? fun c => decide (c.label = l)) = none := by
          rcases h with ⟨ct', hct', l, hl, hfind'⟩
          rcases List.mem_cons.mp hct' with rfl | hmem
          · injection hl with hls
            subst hls
            rw [hfind] at hfind'
            cases hfind'
          · exact ⟨ct', hmem, l, hl, hfind'⟩
        simpa [lcAggregateFrom, hfind] using ih hrest (acc + coef • c.commitment)

theorem lcAggregatePairsFrom_ok (pairs : List (LabeledCommitment C × R)) (L : String)
    (ts : List (F × LCTerm))
    (h : ∀ ct ∈ ts, ∀ l, ct.2 = LCTerm.polyLabel l →
      ((pairs.find? fun p => decide (p.1.label = l)).isSome)) :
    ∀ (accC : C) (accR : R), ∃ v, lcAggregatePairsFrom pairs L accC accR ts = .ok v := by
  induction ts with
  | nil => exact fun accC accR => ⟨(accC, accR), rfl⟩
  | cons ct rest ih =>
    intro accC accR
    obtain ⟨coef, t⟩ := ct
    have hrest := fun ct hct => h ct (List.mem_cons_of_mem _ hct)
    cases t with
    | one =>
      simpa [lcAggregatePairsFrom] using
        ih hrest (accC + coef • (0 : C)) (accR + coef • (0 : R))
    | polyLabel l =>
      have hs := h (coef, .polyLabel l) (List.mem_cons_self _ _) l rfl
      obtain ⟨p, hp⟩ := Option.isSome_iff_exists.mp hs
      simpa [lcAggregatePairsFrom, hp] using
        ih hrest (accC + coef • p.1.commitment) (accR + coef • p.2)

theorem lcAggregatePairsFrom_missing (pairs : List (LabeledCommitment C × R)) (L : String)
    (ts : List (F × LCTerm))
    (h : ∃ ct ∈ ts, ∃ l, ct.2 = LCTerm.polyLabel l ∧
      (pairs.find? fun p => decide (p.1.label = l)) = none) :
    ∀ (accC : C) (accR : R),
      ∃ l, lcAggregatePairsFrom pairs L accC accR ts = .error (.missingCommitment l L) := by
  induction ts with
  | nil => intro accC accR; simp at h
  | cons ct rest ih =>
    intro accC accR
    obtain ⟨coef, t⟩ := ct
    cases t with
    | one =>
      have hrest : ∃ ct ∈ rest, ∃ l, ct.2 = LCTerm.polyLabel l ∧
          (pairs.find? fun p => decide (p.1.label = l)) = none := by
        rcases h with ⟨ct', hct', l, hl, hfind'⟩
        rcases List.mem_cons.mp hct' with rfl | hmem
        · cases hl
        · exact ⟨ct', hmem, l, hl, hfind'⟩
      simpa [lcAggregatePairsFrom] using
        ih hrest (accC + coef • (0 : C)) (accR + coef • (0 : R))
    | polyLabel l0 =>
      cases hfind : pairs.find? fun p => decide (p.1.label = l0) with
      | none => exact ⟨l0, by simp [lcAggregatePairsFrom, hfind]⟩
      | some p =>
        have hrest : ∃ ct ∈ rest, ∃ l, ct.2 = LCTerm.polyLabel l ∧
            (pairs.find? fun p => decide (p.1.label = l)) = none := by
          rcases h with ⟨ct', hct', l, hl, hfind'⟩
          rcases List.mem_cons.mp hct' with rfl | hmem
          · injection hl with hls
            subst hls
            rw [hfind] at hfind'
            cases hfind'
          · exact ⟨ct', hmem, l, hl, hfind'⟩
        simpa [lcAggregatePairsFrom, hfind] using
          ih hrest (accC + coef • p.1.commitment) (accR + coef • p.2)

theorem zip_find?_fst_isSome {A B : Type} (f : A → Bool) :
    ∀ (l : List A) (m : List B), l.length = m.length →
    (((l.zip m).find? fun p => f p.1).isSome) = ((l.find? f).isSome) := by
  intro l
  induction l with
  | nil => intro m _; simp
  | cons a as ih =>
    intro m hm
    cases m with
    | nil => simp at hm
    | cons b bs =>
      simp only [List.zip_cons_cons, List.find?]
      cases hf : f a
      · simpa using ih bs (by simpa using hm)
      · simp

end LCCharacterisation

/-- C6 counterexample: on an empty commitments slice with a linear
combination referencing a label, the claim requires `MissingCommitment`
(the label is absent) — but `get_commitments_lc` returns no `Result` at
all: it panics reading `commitments[0]` (`commitment.rs` line 53),
embedded as `none`, so the call neither fails in one of the three
declared ways nor succeeds. -/
theorem c6_declared_failures_counterexample :
    (get_commitments_lc ([] : List (LabeledCommitment (ZMod 5)))
        ⟨"lc", [((1 : ZMod 5), LCTerm.polyLabel "a")]⟩).isSome = false := by
  rfl

/-- C6 amended: on a non-empty commitments slice, `get_commitments_lc`
and `get_commitments_lc_with_rands` fail in exactly the three declared
ways — `InputLengthError` when the two slices' lengths differ (checked
first, for any commitments slice), `MismatchedDegreeBounds` when some
supplied commitment's degree bound differs from the first one's, and
`MissingCommitment` when the combination references a label not found
among the supplied commitments — and succeed otherwise.  (On an empty
slice they panic instead, per the C9 analysis.) -/
theorem c6_declared_failures_exactly {F C R : Type} [CommRing F] [AddCommGroup C]
    [Module F C] [AddCommGroup R] [Module F R] (c0 : LabeledCommitment C)
    (rest : List (LabeledCommitment C)) (lc : LinearCombination F) (rands : List R) :
    ((∃ c ∈ c0 :: rest, c.degreeBound ≠ c0.degreeBound) →
      ∃ er, get_commitments_lc (c0 :: rest) lc = some (.error er) ∧
        er.kind = RErrorKind.mismatchedDegreeBounds) ∧
    ((∀ c ∈ c0 :: rest, c.degreeBound = c0.degreeBound) →
      (∃ ct ∈ lc.terms, ∃ l, ct.2 = LCTerm.polyLabel l ∧
        ((c0 :: rest).find? fun c => decide (c.label = l)) = none) →
      ∃ er, get_commitments_lc (c0 :: rest) lc = some (.error er) ∧
        er.kind = RErrorKind.missingCommitment) ∧
    ((∀ c ∈ c0 :: rest, c.degreeBound = c0.degreeBound) →
      (∀ ct ∈ lc.terms, ∀ l, ct.2 = LCTerm.polyLabel l →
        (((c0 :: rest).find? fun c => decide (c.label = l)).isSome)) →
      ∃ res, get_commitments_lc (c0 :: rest) lc = some (.ok res)) ∧
    (∀ comms : List (LabeledCommitment C), comms.length ≠ rands.length →
      get_commitments_lc_with_rands comms rands lc
        = some (.error (.inputLengthError comms.length rands.length))) ∧
    ((c0 :: rest).length = rands.length →
      ((∃ c ∈ c0 :: rest, c.degreeBound ≠ c0.degreeBound) →
        ∃ er, get_commitments_lc_with_rands (c0 :: rest) rands lc = some (.error er) ∧
          er.kind = RErrorKind.mismatchedDegreeBounds) ∧
      ((∀ c ∈ c0 :: rest, c.degreeBound = c0.degreeBound) →
        (∃ ct ∈ lc.terms, ∃ l, ct.2 = LCTerm.polyLabel l ∧
          ((c0 :: rest).find? fun c => decide (c.label = l)) = none) →
        ∃ er, get_commitments_lc_with_rands (c0 :: rest) rands lc = some (.error er) ∧
          er.kind = RErrorKind.missingCommitment) ∧
      ((∀ c ∈ c0 :: rest, c.degreeBound = c0.degreeBound) →
        (∀ ct ∈ lc.terms, ∀ l, ct.2 = LCTerm.polyLabel l →
          (((c0 :: rest).find? fun c => decide (c.label = l)).isSome)) →
        ∃ res, get_commitments_lc_with_rands (c0 :: rest) rands lc = some (.ok res))) := by
  refine ⟨fun hmis => ?_, fun hall hmiss => ?_, fun hall hfound => ?_,
    fun comms hne => ?_, fun hlen => ⟨fun hmis => ?_, fun hall hmiss => ?_,
      fun hall hfound => ?_⟩⟩
  · have hs : (((c0 :: rest).find? fun c =>
        decide (c.degreeBound ≠ c0.degreeBound)).isSome) := by
      rw [List.find?_isSome]
      obtain ⟨c, hc, hne⟩ := hmis
      exact ⟨c, hc, by simpa using hne⟩
    obtain ⟨c, hc⟩ := Option.isSome_iff_exists.mp hs
    refine ⟨RError.mismatchedDegreeBounds c0.label c0.degreeBound c.label c.degreeBound,
      ?_, rfl⟩
    simp only [get_commitments_lc, hc]
  · have hfindn : ((c0 :: rest).find? fun c =>
        decide (c.degreeBound ≠ c0.degreeBound)) = none :=
      List.find?_eq_none.mpr fun c hc => by simpa using hall c hc
    obtain ⟨l, hagg⟩ := lcAggregateFrom_missing (c0 :: rest) lc.label lc.terms hmiss 0
    refine ⟨RError.missingCommitment l lc.label, ?_, rfl⟩
    simp only [get_commitments_lc, hfindn, hagg]
  · have hfindn : ((c0 :: rest).find? fun c =>
        decide (c.degreeBound ≠ c0.degreeBound)) = none :=
      List.find?_eq_none.mpr fun c hc => by simpa using hall c hc
    obtain ⟨v, hagg⟩ := lcAggregateFrom_ok (c0 :: rest) lc.label lc.terms hfound 0
    refine ⟨⟨lc.label, v, c0.degreeBound⟩, ?_⟩
    simp only [get_commitments_lc, hfindn, hagg]
  · simp [get_commitments_lc_with_rands, hne]
  · have hcond : ¬ ((c0 :: rest).length ≠ rands.length) := fun h => h hlen
    have hs : (((c0 :: rest).find? fun c =>
        decide (c.degreeBound ≠ c0.degreeBound)).isSome) := by
      rw [List.find?_isSome]
      obtain ⟨c, hc, hne⟩ := hmis
      exact ⟨c, hc, by simpa using hne⟩
    obtain ⟨c, hc⟩ := Option.isSome_iff_exists.mp hs
    refine ⟨RError.mismatchedDegreeBounds c0.label c0.degreeBound c.label c.degreeBound,
      ?_, rfl⟩
    simp only [get_commitments_lc_with_rands, if_neg hcond, hc]
  · have hcond : ¬ ((c0 :: rest).length ≠ rands.length) := fun h => h hlen
    have hfindn : ((c0 :: rest).find? fun c =>
        decide (c.degreeBound ≠ c0.degreeBound)) = none :=
      List.find?_eq_none.mpr fun c hc => by simpa using hall c hc
    have hmissp : ∃ ct ∈ lc.terms, ∃ l, ct.2 = LCTerm.polyLabel l ∧
        (((c0 :: rest).zip rands).find? fun p => decide (p.1.label = l)) = none := by
      obtain ⟨ct, hct, l, hl, hfind⟩ := hmiss
      refine ⟨ct, hct, l, hl, ?_⟩
      have hzs := zip_find?_fst_isSome (fun c => decide (c.label = l)) (c0 :: rest) rands hlen
      rw [hfind] at hzs
      exact Option.not_isSome_iff_eq_none.mp (by simp [hzs])
    obtain ⟨l, hagg⟩ :=
      lcAggregatePairsFrom_missing ((c0 :: rest).zip rands) lc.label lc.terms hmissp 0 0
    refine ⟨RError.missingCommitment l lc.label, ?_, rfl⟩
    simp only [get_commitments_lc_with_rands, if_neg hcond, hfindn, hagg]
  · have hcond : ¬ ((c0 :: rest).length ≠ rands.length) := fun h => h hlen
    have hfindn : ((c0 :: rest).find? fun c =>
        decide (c.degreeBound ≠ c0.degreeBound)) = none :=
      List.find?_eq_none.mpr fun c hc => by simpa using hall c hc
    have hfoundp : ∀ ct ∈ lc.terms, ∀ l, ct.2 = LCTerm.polyLabel l →
        ((((c0 :: rest).zip rands).find? fun p => decide (p.1.label = l)).isSome) := by
      intro ct hct l hl
      rw [zip_find?_fst_isSome (fun c => decide (c.label = l)) (c0 :: rest) rands hlen]
      exact hfound ct hct l hl
    obtain ⟨v, hagg⟩ :=
      lcAggregatePairsFrom_ok ((c0 :: rest).zip rands) lc.label lc.terms hfoundp 0 0
    refine ⟨(⟨lc.label, v.1, c0.degreeBound⟩, v.2), ?_⟩
    simp only [get_commitments_lc_with_rands, if_neg hcond, hfindn, hagg]

theorem c6_declared_failures_exactly_witness :
    ∃ er, get_commitments_lc
        [(⟨"a", (1 : ZMod 5), some 3⟩ : LabeledCommitment (ZMod 5)), ⟨"b", 2, some 4⟩]
        (⟨"lc", []⟩ : LinearCombination (ZMod 5))
      = some (.error er) ∧ er.kind = RErrorKind.mismatchedDegreeBounds :=
  (c6_declared_failures_exactly (⟨"a", (1 : ZMod 5), some 3⟩ : LabeledCommitment (ZMod 5))
    [⟨"b", 2, some 4⟩] ⟨"lc", []⟩ ([] : List (ZMod 5))).1 (by decide)

section Homomorphism

variable {F C P : Type} [CommRing F] [AddCommGroup C] [Module F C]
variable [AddCommGroup P] [Module F P]

theorem lcAggregateFrom_resolved (commit : P →ₗ[F] C)
    (comms : List (LabeledCommitment C)) (L : String) (db : Option Nat)
    (zs : List (F × (String × P)))
    (hz : ∀ z ∈ zs, (comms.find? fun c => decide (c.label = z.2.1))
      = some ⟨z.2.1, commit z.2.2, db⟩) :
    ∀ acc : C,
      lcAggregateFrom comms L acc (zs.map fun z => (z.1, LCTerm.polyLabel z.2.1))
        = .ok (acc + commit (zs.foldr (fun z s => z.1 • z.2.2 + s) 0)) := by
  induction zs with
  | nil => intro acc; simp [lcAggregateFrom]
  | cons z zs ih =>
    intro acc
    have hz0 := hz z (List.mem_cons_self _ _)
    have hztl := fun w hw => hz w (List.mem_cons_of_mem _ hw)
    simp only [List.map_cons, List.foldr_cons, lcAggregateFrom, hz0]
    rw [ih hztl (acc + z.1 • commit z.2.2)]
    congr 1
    rw [map_add, map_smul, add_assoc]

theorem find?_map_mkComm (commit : P →ₗ[F] C) (db : Option Nat) :
    ∀ (ps : List (String × P)), (ps.map Prod.fst).Nodup →
    ∀ (s : String) (p : P), (s, p) ∈ ps →
    ((ps.map fun sp => (⟨sp.1, commit sp.2, db⟩ : LabeledCommitment C)).find?
      fun c => decide (c.label = s)) = some ⟨s, commit p, db⟩ := by
  intro ps
  induction ps with
  | nil => intro _ s p hmem; cases hmem
  | cons sp0 rest ih =>
    intro hnd s p hmem
    have hnd' : sp0.1 ∉ rest.map Prod.fst ∧ (rest.map Prod.fst).Nodup := by
      rw [List.map_cons, List.nodup_cons] at hnd
      exact hnd
    by_cases heq : sp0.1 = s
    · have hsp : (s, p) = sp0 := by
        rcases List.mem_cons.mp hmem with h | hmem'
        · exact h
        · exact absurd (List.mem_map.mpr ⟨(s, p), hmem', heq.symm⟩) hnd'.1
      simp only [List.map_cons, List.find?]
      rw [show decide ((⟨sp0.1, commit sp0.2, db⟩ : LabeledCommitment C).label = s)
          = true from by simpa using heq]
      rw [← hsp]
    · have hmem' : (s, p) ∈ rest := by
        rcases List.mem_cons.mp hmem with h | hmem'
        · exact absurd (congrArg Prod.fst h.symm) heq
        · exact hmem'
      simp only [List.map_cons, List.find?]
      rw [show decide ((⟨sp0.1, commit sp0.2, db⟩ : LabeledCommitment C).label = s)
          = false from by simpa using heq]
      exact ih hnd'.2 s p hmem'

/-- C3: for polynomials `p_1..p_n` committed (without hiding) under a
common degree bound with pairwise distinct labels, and scalars
`lam_1..lam_n`, `get_commitments_lc` on their labeled commitments and
the linear combination with those coefficients returns the label of the
combination together with exactly the commitment of `sum(lam_i * p_i)`,
where `commit` is linear as the AHPCS homomorphism contract demands
(spec sections 4.1 and 8; the KZG backend supplying `commit` is an
external collaborator). -/
theorem c3_lc_homomorphism (commit : P →ₗ[F] C) (ps : List (String × P))
    (lams : List F) (db : Option Nat) (lcLabel : String) (hne : ps ≠ [])
    (hnd : (ps.map Prod.fst).Nodup) :
    get_commitments_lc (ps.map fun sp => ⟨sp.1, commit sp.2, db⟩)
        ⟨lcLabel, (lams.zip ps).map fun z => (z.1, LCTerm.polyLabel z.2.1)⟩
      = some (.ok ⟨lcLabel,
          commit ((lams.zip ps).foldr (fun z s => z.1 • z.2.2 + s) 0), db⟩) := by
  obtain ⟨sp0, ps', rfl⟩ := List.exists_cons_of_ne_nil hne
  have hfindn : (((⟨sp0.1, commit sp0.2, db⟩ : LabeledCommitment C) ::
      ps'.map fun sp => ⟨sp.1, commit sp.2, db⟩).find? fun c =>
        decide (c.degreeBound ≠ (⟨sp0.1, commit sp0.2, db⟩ :
          LabeledCommitment C).degreeBound)) = none := by
    apply List.find?_eq_none.mpr
    intro c hc
    rcases List.mem_cons.mp hc with rfl | hc'
    · simp
    · obtain ⟨sp, _, rfl⟩ := List.mem_map.mp hc'
      simp
  have hz : ∀ z ∈ lams.zip (sp0 :: ps'),
      ((((sp0 :: ps').map fun sp => (⟨sp.1, commit sp.2, db⟩ : LabeledCommitment C)).find?
        fun c => decide (c.label = z.2.1)) = some ⟨z.2.1, commit z.2.2, db⟩) := by
    intro z hzmem
    exact find?_map_mkComm commit db (sp0 :: ps') hnd z.2.1 z.2.2
      (by simpa using (List.of_mem_zip hzmem).2)
  have hagg := lcAggregateFrom_resolved commit
    ((sp0 :: ps').map fun sp => ⟨sp.1, commit sp.2, db⟩) lcLabel db
    (lams.zip (sp0 :: ps')) hz (0 : C)
  simp only [List.map_cons] at hagg ⊢
  simp only [get_commitments_lc, hfindn, hagg, zero_add]

end Homomorphism

theorem c3_lc_homomorphism_witness :
    get_commitments_lc
        ([("a", (1 : ZMod 5)), ("b", 2)].map fun sp =>
          ⟨sp.1, (LinearMap.id : ZMod 5 →ₗ[ZMod 5] ZMod 5) sp.2, some 10⟩)
        ⟨"lc", (([3, 4] : List (ZMod 5)).zip [("a", (1 : ZMod 5)), ("b", 2)]).map
          fun z => (z.1, LCTerm.polyLabel z.2.1)⟩
      = some (.ok ⟨"lc", (LinearMap.id : ZMod 5 →ₗ[ZMod 5] ZMod 5)
          ((([3, 4] : List (ZMod 5)).zip [("a", (1 : ZMod 5)), ("b", 2)]).foldr
            (fun z s => z.1 • z.2.2 + s) 0), some 10⟩) :=
  c3_lc_homomorphism LinearMap.id [("a", 1), ("b", 2)] [3, 4] (some 10) "lc"
    (by decide) (by decide)

section InstantiateQueryAgreement

variable {F : Type} [CommRing F]

theorem getD_map_polyEval (ps : List (RPoly F)) (x : F) :
    ∀ i : Nat, (ps.map fun p => polyEval p x).getD i 0 = polyEval (ps.getD i []) x := by
  induction ps with
  | nil => intro i; simp [polyEval_nil]
  | cons p ps ih =>
    intro i
    cases i with
    | zero => simp
    | succ n => simpa using ih n

theorem polyEval_evalPoly (e : ArithExpr F) (ps : List (RPoly F)) (x : F) :
    polyEval (e.evalPoly ps) x = e.evalField (ps.map fun p => polyEval p x) := by
  induction e with
  | const c => simp [ArithExpr.evalPoly, ArithExpr.evalField, polyEval_cons, polyEval_nil]
  | term i =>
    show polyEval (ps.getD i []) x = (ps.map fun p => polyEval p x).getD i 0
    exact (getD_map_polyEval ps x i).symm
  | add a b iha ihb =>
    simp [ArithExpr.evalPoly, ArithExpr.evalField, polyEval_polyAdd, iha, ihb]
  | sub a b iha ihb =>
    simp [ArithExpr.evalPoly, ArithExpr.evalField, polyEval_polySub, iha, ihb]
  | mul a b iha ihb =>
    simp [ArithExpr.evalPoly, ArithExpr.evalField, polyEval_polyMul, iha, ihb]

omit [CommRing F] in
theorem termsAsPolys_map_polynomial (l : List (RPoly F)) :
    termsAsPolys (l.map VOTerm.Polynomial) = some l := by
  induction l with
  | nil => rfl
  | cons p ps ih => simp [termsAsPolys, ih]

omit [CommRing F] in
theorem termsAsEvals_map_evaluation (l : List F) :
    termsAsEvals (l.map VOTerm.Evaluation) = some l := by
  induction l with
  | nil => rfl
  | cons e es ih => simp [termsAsEvals, ih]

omit [CommRing F] in
theorem termsAsPolys_map_evaluation (l : List F) (h : l ≠ []) :
    termsAsPolys (l.map VOTerm.Evaluation) = none := by
  cases l with
  | nil => cases h rfl
  | cons e es => rfl

theorem combineOfExpr_polys (e : ArithExpr F) (ps : List (RPoly F)) :
    combineOfExpr e (ps.map VOTerm.Polynomial) = .Polynomial (e.evalPoly ps) := by
  simp [combineOfExpr, termsAsPolys_map_polynomial]

theorem combineOfExpr_evals (e : ArithExpr F) (es : List F) (h : es ≠ []) :
    combineOfExpr e (es.map VOTerm.Evaluation) = .Evaluation (e.evalField es) := by
  simp [combineOfExpr, termsAsPolys_map_evaluation es h, termsAsEvals_map_evaluation]

/-- C8: for every virtual oracle with an arithmetic combine function and
every tuple of concrete oracles meeting its arity, instantiating the
oracle as a polynomial (`compute_polynomial`) and evaluating at any
field point `x` agrees with querying the oracle on the concrete
oracles' evaluations at their shifted points `alpha_i * x`; likewise
for `ProductCheckVO`'s `instantiate_in_coeffs_form` and `query` (whose
shifts are identically 1, as at its `DLComparison` use site). -/
theorem c8_instantiate_evaluate_query_agree :
    (∀ (mv : List Nat) (alphas : List F) (e : ArithExpr F)
      (oracles : List (RPoly F)) (x : F),
      mv ≠ [] →
      ¬ oracles.length < (NewVO.mk mv alphas (combineOfExpr e)).minimumOracleLength →
      ∃ P, (NewVO.mk mv alphas (combineOfExpr e)).computePolynomial oracles = .ok P ∧
        (NewVO.mk mv alphas (combineOfExpr e)).queryEvals
            (mv.enum.map fun timi =>
              polyEval (oracles.getD timi.2 []) (alphas.getD timi.1 0 * x)) x
          = .ok (polyEval P x)) ∧
    (∀ (p0 p1 p2 : RPoly F) (x : F),
      ∃ P, productCheckInstantiate [p0, p1, p2] = .ok P ∧
        productCheckQuery [polyEval p0 x, polyEval p1 x, polyEval p2 x] x
          = .ok (polyEval P x)) := by
  constructor
  · intro mv alphas e oracles x hmv hlen
    set shifted : List (RPoly F) := mv.enum.map fun timi =>
      shiftPoly (alphas.getD timi.1 0) (oracles.getD timi.2 []) with hshifted
    have hterms : (NewVO.mk mv alphas (combineOfExpr e)).polyTerms oracles
        = shifted.map VOTerm.Polynomial := by
      simp [NewVO.polyTerms, hshifted, List.map_map, Function.comp]
    have hevals : shifted.map (fun p => polyEval p x)
        = mv.enum.map fun timi =>
            polyEval (oracles.getD timi.2 []) (alphas.getD timi.1 0 * x) := by
      simp [hshifted, List.map_map, Function.comp, polyEval_shiftPoly]
    have hne : (mv.enum.map fun timi =>
        polyEval (oracles.getD timi.2 []) (alphas.getD timi.1 0 * x)) ≠ [] := by
      simp only [ne_eq, List.map_eq_nil_iff, List.enum_eq_nil]
      exact hmv
    refine ⟨e.evalPoly shifted, ?_, ?_⟩
    · simp [NewVO.computePolynomial, if_neg hlen, hterms, combineOfExpr_polys]
    · show (match combineOfExpr e ((mv.enum.map fun timi =>
          polyEval (oracles.getD timi.2 []) (alphas.getD timi.1 0 * x)).map
            VOTerm.Evaluation) with
        | .Evaluation res => Except.ok res
        | .Polynomial _ => Except.error RError.vOFailedToCompute)
        = Except.ok (polyEval (e.evalPoly shifted) x)
      rw [combineOfExpr_evals e _ hne, polyEval_evalPoly, hevals]
  · intro p0 p1 p2 x
    refine ⟨polySub p0 (polyMul p1 p2), ?_, ?_⟩
    · simp [productCheckInstantiate]
    · simp [productCheckQuery, polyEval_polySub, polyEval_polyMul]

end InstantiateQueryAgreement

theorem c8_instantiate_evaluate_query_agree_witness :
    (([0, 1] : List Nat) ≠ [] ∧
      ¬ ([[1, 2], [3]] : List (RPoly (ZMod 7))).length
        < (NewVO.mk [0, 1] [(1 : ZMod 7), 2] (combineOfExpr (ArithExpr.sub (ArithExpr.term 0)
            (ArithExpr.mul (ArithExpr.term 1) (ArithExpr.term 1))))).minimumOracleLength) ∧
    (∃ P, (NewVO.mk [0, 1] [(1 : ZMod 7), 2] (combineOfExpr (ArithExpr.sub (ArithExpr.term 0)
          (ArithExpr.mul (ArithExpr.term 1) (ArithExpr.term 1))))).computePolynomial
          [[1, 2], [3]] = .ok P ∧
      (NewVO.mk [0, 1] [(1 : ZMod 7), 2] (combineOfExpr (ArithExpr.sub (ArithExpr.term 0)
          (ArithExpr.mul (ArithExpr.term 1) (ArithExpr.term 1))))).queryEvals
          (([0, 1] : List Nat).enum.map fun timi =>
            polyEval (([[1, 2], [3]] : List (RPoly (ZMod 7))).getD timi.2 [])
              ((([(1 : ZMod 7), 2]).getD timi.1 0) * 2)) 2
        = .ok (polyEval P 2)) ∧
    (∃ P, productCheckInstantiate [[(1 : ZMod 7)], [2], [3]] = .ok P ∧
      productCheckQuery [polyEval [(1 : ZMod 7)] 1, polyEval [(2 : ZMod 7)] 1,
          polyEval [(3 : ZMod 7)] 1] 1
        = .ok (polyEval P 1)) :=
  ⟨⟨by decide, by decide⟩,
   c8_instantiate_evaluate_query_agree.1 [0, 1] [(1 : ZMod 7), 2]
     (ArithExpr.sub (ArithExpr.term 0) (ArithExpr.mul (ArithExpr.term 1) (ArithExpr.term 1)))
     [[1, 2], [3]] 2 (by decide) (by decide),
   c8_instantiate_evaluate_query_agree.2 [(1 : ZMod 7)] [2] [3] 1⟩
